import Mathlib

set_option maxRecDepth 100000

/-!
Shallow embedding of the lens discovery, validation and enhancement pipeline
of src/src/utils/lensValidator.js (the revision with the exact and fallback
enhance maps and the default enhance payload; that is the revision the line
references of the claims point into).

JavaScript values are modelled by the inductive JValue.  Property access,
truthiness, typeof and strict equality against a string literal are modelled
explicitly.  Property access on null or undefined throws a TypeError, which
is modelled with Except Unit.  Numbers are modelled as Int; the JSON parser
below accepts integer numeric literals only, and string escapes limited to
the common single character escapes, which is the only shape the concrete
scenarios of the claims need.  File system trees are modelled by FSL below.
-/

inductive JValue where
  | null : JValue
  | undef : JValue
  | bool : Bool → JValue
  | num : Int → JValue
  | str : String → JValue
  | arr : List JValue → JValue
  | obj : List (String × JValue) → JValue

/-- JavaScript truthiness of a value. -/
def truthy : JValue → Bool
  | JValue.null => false
  | JValue.undef => false
  | JValue.bool b => b
  | JValue.num n => !(n == 0)
  | JValue.str s => !(s.length == 0)
  | JValue.arr _ => true
  | JValue.obj _ => true

/-- The result of the typeof operator, as a string. -/
def typeofStr : JValue → String
  | JValue.null => "object"
  | JValue.undef => "undefined"
  | JValue.bool _ => "boolean"
  | JValue.num _ => "number"
  | JValue.str _ => "string"
  | JValue.arr _ => "object"
  | JValue.obj _ => "object"

/-- First value stored under a key in an object body. -/
def findVal : List (String × JValue) → String → JValue
  | [], _ => JValue.undef
  | (k2, v) :: rest, k => if k2 == k then v else findVal rest k

/-- Property read that cannot throw: objects look the key up, every other
value yields undefined.  Only used where the base is known non nullish. -/
def getFieldD : JValue → String → JValue
  | JValue.obj kvs, k => findVal kvs k
  | _, _ => JValue.undef

/-- Property read as JavaScript performs it: reading a property of null or
undefined throws a TypeError. -/
def getField : JValue → String → Except Unit JValue
  | JValue.null, _ => Except.error ()
  | JValue.undef, _ => Except.error ()
  | v, k => Except.ok (getFieldD v k)

/-- Strict equality of a value against a string literal. -/
def isStrEq : JValue → String → Bool
  | JValue.str s, t => s == t
  | _, _ => false

/-- Updates an object body at a key the way a JavaScript property write
does: an existing key keeps its position, a new key is appended. -/
def objSet : List (String × JValue) → String → JValue → List (String × JValue)
  | [], k, v => [(k, v)]
  | (k2, v2) :: rest, k, v =>
    if k2 == k then (k2, v) :: rest else (k2, v2) :: objSet rest k v

/-- Property write: on an object it stores the key, on any other value the
write is a silent no op (the module runs in sloppy mode; writes on null or
undefined never reach this function in the pipeline). -/
def setField (v : JValue) (k : String) (x : JValue) : JValue :=
  match v with
  | JValue.obj kvs => JValue.obj (objSet kvs k x)
  | other => other

structure VResult where
  isValid : Bool
  errors : List String
deriving DecidableEq

def objMsg : String := "Lens must be a JSON object"
def rtMsg : String := "resourceType must be \"Library\""
def urlMsg : String := "url is required and must be a string"
def nameMsg : String := "name is required and must be a string"
def statusMsg : String := "status is required and must be a string"
def arrayMsg : String := "content must be an array"
def contentMsg : String := "content must include at least one item with base64 encoded data"

/-- One required string field check: a violation unless the value is a
truthy string, mirroring if (!lens.f or typeof lens.f is not string). -/
def reqStrErr (v : JValue) (msg : String) : List String :=
  if !(truthy v) || typeofStr v != "string" then [msg] else []

/-- The four field checks of validateFHIRLens that precede the content
check, producing their violations in source order. -/
def baseErrs (lens : JValue) : List String :=
  (if isStrEq (getFieldD lens ("resourceType")) ("Library") then [] else [rtMsg])
    ++ reqStrErr (getFieldD lens ("url")) urlMsg
    ++ reqStrErr (getFieldD lens ("name")) nameMsg
    ++ reqStrErr (getFieldD lens ("status")) statusMsg

/-- The scan of lens.content for an item with truthy string data; mirrors
the for of loop with break.  Reading item.data throws on nullish items. -/
def hasBase64Loop : List JValue → Except Unit Bool
  | [] => Except.ok false
  | item :: rest =>
    match getField item ("data") with
    | Except.error e => Except.error e
    | Except.ok d =>
      if truthy d && typeofStr d == "string" then Except.ok true
      else hasBase64Loop rest

/-- validateFHIRLens of lensValidator.js: object guard, the four field
checks, then the content check, isValid true exactly when no violations. -/
def validateFHIRLens (lens : JValue) : Except Unit VResult :=
  if !(truthy lens) || typeofStr lens != "object" then
    Except.ok ⟨false, [objMsg]⟩
  else
    match getFieldD lens ("content") with
    | JValue.arr items =>
      match hasBase64Loop items with
      | Except.error e => Except.error e
      | Except.ok true => Except.ok ⟨(baseErrs lens).isEmpty, baseErrs lens⟩
      | Except.ok false =>
        Except.ok ⟨(baseErrs lens ++ [contentMsg]).isEmpty, baseErrs lens ++ [contentMsg]⟩
    | _ => Except.ok ⟨(baseErrs lens ++ [arrayMsg]).isEmpty, baseErrs lens ++ [arrayMsg]⟩

/-- The single item test of isLensMissingBase64Content: not item, or
item.data not a string, or item.data.length zero. -/
def singleItemMissing (item : JValue) : Except Unit Bool :=
  if !(truthy item) then Except.ok true
  else
    match getFieldD item ("data") with
    | JValue.str s => Except.ok (s.length == 0)
    | _ => Except.ok true

/-- The arrow function of the some call of isLensMissingBase64Content:
c and c.data is a string and c.data.length positive. -/
def contentItemScan (c : JValue) : Bool :=
  truthy c && (match getFieldD c ("data") with
    | JValue.str s => decide (0 < s.length)
    | _ => false)

/-- isLensMissingBase64Content of lensValidator.js. -/
def isLensMissingBase64Content (jsonData : JValue) : Except Unit Bool :=
  match getField jsonData ("content") with
  | Except.error e => Except.error e
  | Except.ok content =>
    match content with
    | JValue.arr [] => Except.ok true
    | JValue.arr [item] => singleItemMissing item
    | JValue.arr items => Except.ok (!(items.any contentItemScan))
    | _ => Except.ok true

/-- An item carrying a payload: its data field is a non empty string.
Written from the claim wording of C7, for comparison with the source
function isLensMissingBase64Content. -/
def itemHasData (item : JValue) : Bool :=
  match getFieldD item ("data") with
  | JValue.str s => decide (0 < s.length)
  | _ => false

/-- The missing payload predicate as the claim C7 words it: content absent,
not an array, or empty; or exactly one item without payload; or several
items none of which carries a payload. -/
def missingPayloadSpec (doc : JValue) : Bool :=
  match getFieldD doc ("content") with
  | JValue.arr [] => true
  | JValue.arr [item] => !(itemHasData item)
  | JValue.arr items => !(items.any itemHasData)
  | _ => true

/-! String helpers used by the file system scan: substring containment,
the extension of an entry name, and the base name without the js ending. -/

/-- Whether the second character list starts with the first. -/
def startsWithL : List Char → List Char → Bool
  | [], _ => true
  | _ :: _, [] => false
  | a :: as, b :: bs => a == b && startsWithL as bs

/-- Whether the needle occurs as a contiguous run inside the hay. -/
def hasInfixL (needle : List Char) : List Char → Bool
  | [] => needle.isEmpty
  | c :: cs => startsWithL needle (c :: cs) || hasInfixL needle cs

/-- String.includes of JavaScript: literal substring search. -/
def strContains (hay needle : String) : Bool :=
  hasInfixL needle.data hay.data

/-- Index of the last dot of the name, if any. -/
def lastDotAux : List Char → Nat → Option Nat → Option Nat
  | [], _, acc => acc
  | c :: rest, i, acc =>
    lastDotAux rest (i + 1) (if c == '.' then some i else acc)

/-- path.extname of Node on a plain entry name: the suffix from the last
dot, empty when there is no dot or the only dot starts the name. -/
def extname (name : String) : String :=
  match lastDotAux name.data 0 none with
  | some i => if i == 0 then ("") else String.mk (name.data.drop i)
  | none => ("")

/-- path.basename with the js extension argument: strips a final js
ending unless the whole name is that ending. -/
def basenameStripJs (name : String) : String :=
  let cs := name.data
  if (decide (3 ≤ cs.length) && (cs.drop (cs.length - 3) == ['.', 'j', 's']))
      && name != ".js" then
    String.mk (cs.take (cs.length - 3))
  else name

/-- The textual enhance detection of findEnhanceFiles.  The JavaScript
source writes patterns such as a backslash s inside plain string literals
and tests them with String.includes; the backslash escape evaluates to the
bare letter s, so the searched substrings are the literal texts below and
no regular expression matching happens at all. -/
def hasEnhanceMarker (content : String) : Bool :=
  strContains content ("functions+enhance")
    || strContains content ("consts+enhance")
    || strContains content ("export.*enhance")
    || strContains content ("lets+enhances+=.*()")

/-! Base64 of the utf8 bytes of a string, as Buffer.from(s).toString
with the base64 argument produces it. -/

def b64Table : List Char :=
  ("ABCDEFGHIJKLMNOPQRSTUVWXYZabcdefghijklmnopqrstuvwxyz0123456789+/").data

def b64Char (n : Nat) : Char := b64Table.getD n '='

/-- Standard base64 of a byte list, bytes given as naturals below 256. -/
def b64Enc : List Nat → List Char
  | [] => []
  | [a] => [b64Char (a / 4), b64Char (a % 4 * 16), '=', '=']
  | [a, b] => [b64Char (a / 4), b64Char (a % 4 * 16 + b / 16), b64Char (b % 16 * 4), '=']
  | a :: b :: c :: rest =>
    b64Char (a / 4) :: b64Char (a % 4 * 16 + b / 16)
      :: b64Char (b % 16 * 4 + c / 64) :: b64Char (c % 64) :: b64Enc rest

/-- The utf8 bytes of one code point. -/
def utf8Bytes (c : Char) : List Nat :=
  let n := c.toNat
  if n < 128 then [n]
  else if n < 2048 then [192 + n / 64, 128 + n % 64]
  else if n < 65536 then [224 + n / 4096, 128 + n / 64 % 64, 128 + n % 64]
  else [240 + n / 262144, 128 + n / 4096 % 64, 128 + n / 64 % 64, 128 + n % 64]

/-- Base64 of the utf8 encoding of a string. -/
def b64OfString (s : String) : String :=
  String.mk (b64Enc (s.data.flatMap utf8Bytes))

/-- The default enhance source of getDefaultEnhanceBase64, exactly as the
template literal in lensValidator.js spells it. -/
def defaultEnhanceText : String :=
  "function enhance(originalContent) \x7b\n    console.log(\x27Not Enhancing\x27);\n    return originalContent;\n\x7d"

/-- getDefaultEnhanceBase64 of lensValidator.js. -/
def getDefaultEnhanceBase64 : String := b64OfString defaultEnhanceText

/-! A JSON parser modelling JSON.parse for the shapes the repository
stores: null, booleans, integer numeric literals, strings with the common
single character escapes, arrays and objects.  A text outside this subset
parses to none, which the pipeline treats like a parse failure. -/

def jsonWs (c : Char) : Bool :=
  c == ' ' || c == '\n' || c == '\t' || c == '\r'

def skipWs : List Char → List Char
  | [] => []
  | c :: rest => if jsonWs c then skipWs rest else c :: rest

/-- Parses the remainder of a string literal, the opening quote already
consumed; yields the text and the rest of the input. -/
def parseStrLit : List Char → Option (String × List Char)
  | [] => none
  | c :: rest =>
    if c == '"' then some (("") , rest)
    else if c == '\\' then
      match rest with
      | [] => none
      | e :: rest2 =>
        let m : Option Char :=
          if e == '"' then some '"'
          else if e == '\\' then some '\\'
          else if e == '/' then some '/'
          else if e == 'n' then some '\n'
          else if e == 't' then some '\t'
          else if e == 'r' then some '\r'
          else none
        match m with
        | none => none
        | some ch =>
          match parseStrLit rest2 with
          | none => none
          | some (s, r) => some (String.mk (ch :: s.data), r)
    else
      match parseStrLit rest with
      | none => none
      | some (s, r) => some (String.mk (c :: s.data), r)

/-- Reads a run of decimal digits into an accumulator. -/
def digitsAux : List Char → Nat → Nat × List Char
  | [], acc => (acc, [])
  | c :: rest, acc =>
    if c.isDigit then digitsAux rest (acc * 10 + (c.toNat - 48)) else (acc, c :: rest)

mutual

/-- Parses one JSON value at the head of the input. -/
def parseVal : Nat → List Char → Option (JValue × List Char)
  | 0, _ => none
  | fuel + 1, cs0 =>
    let cs := skipWs cs0
    match cs with
    | [] => none
    | c :: rest =>
      if c == '"' then
        match parseStrLit rest with
        | none => none
        | some (s, r) => some (JValue.str s, r)
      else if c == '[' then
        match skipWs rest with
        | ']' :: r => some (JValue.arr [], r)
        | cs2 =>
          match parseArrLoop fuel cs2 with
          | none => none
          | some (vs, r) => some (JValue.arr vs, r)
      else if c == '\x7b' then
        match skipWs rest with
        | '\x7d' :: r => some (JValue.obj [], r)
        | cs2 =>
          match parseObjLoop fuel cs2 with
          | none => none
          | some (kvs, r) => some (JValue.obj kvs, r)
      else if startsWithL ("true").data cs then some (JValue.bool true, cs.drop 4)
      else if startsWithL ("false").data cs then some (JValue.bool false, cs.drop 5)
      else if startsWithL ("null").data cs then some (JValue.null, cs.drop 4)
      else if c == '-' then
        match rest with
        | d :: _ =>
          if d.isDigit then
            let (n, r) := digitsAux rest 0
            some (JValue.num (-(n : Int)), r)
          else none
        | [] => none
      else if c.isDigit then
        let (n, r) := digitsAux cs 0
        some (JValue.num (n : Int), r)
      else none

/-- Parses the comma separated items of a non empty array, up to and
including the closing bracket. -/
def parseArrLoop : Nat → List Char → Option (List JValue × List Char)
  | 0, _ => none
  | fuel + 1, cs =>
    match parseVal fuel cs with
    | none => none
    | some (v, r1) =>
      match skipWs r1 with
      | ',' :: r2 =>
        match parseArrLoop fuel r2 with
        | none => none
        | some (vs, r3) => some (v :: vs, r3)
      | ']' :: r2 => some ([v], r2)
      | _ => none

/-- Prepends a member unless the key already occurs later in the text, so
that a repeated key keeps the last value the way JSON.parse does. -/
def objMember (k : String) (v : JValue) (kvs : List (String × JValue)) :
    List (String × JValue) :=
  if kvs.any (fun p => p.1 == k) then kvs else (k, v) :: kvs

/-- Parses the comma separated members of a non empty object, up to and
including the closing brace. -/
def parseObjLoop : Nat → List Char → Option (List (String × JValue) × List Char)
  | 0, _ => none
  | fuel + 1, cs =>
    match skipWs cs with
    | '"' :: r0 =>
      match parseStrLit r0 with
      | none => none
      | some (k, r1) =>
        match skipWs r1 with
        | ':' :: r2 =>
          match parseVal fuel r2 with
          | none => none
          | some (v, r3) =>
            match skipWs r3 with
            | ',' :: r4 =>
              match parseObjLoop fuel r4 with
              | none => none
              | some (kvs, r5) => some (objMember k v kvs, r5)
            | '\x7d' :: r4 => some ([(k, v)], r4)
            | _ => none
        | _ => none
    | _ => none

end

/-- JSON.parse: one value, optionally surrounded by whitespace, and
nothing after it. -/
def jsonParse (s : String) : Option JValue :=
  match parseVal (s.length + 1) s.data with
  | none => none
  | some (v, r) => if (skipWs r).isEmpty then some v else none

/-! The file system model.  A directory listing is either unlistable (bad,
readdir throws), empty, or an entry followed by the remaining listing.  A
file entry carries its text, or none when reading it throws.  Paths are
segment lists relative to the discovery root, so the root itself is the
empty path; path.join appends a segment and path.dirname drops the last
one. -/

inductive FSL where
  | bad : FSL
  | nil : FSL
  | consFile (name : String) (data : Option String) (rest : FSL)
  | consDir (name : String) (sub : FSL) (rest : FSL)

/-- fs.readFileSync on a path: walks the tree; a missing entry, a
directory where a file is expected, or an unreadable file throws. -/
def readFileFS : FSL → List String → Except Unit String
  | FSL.bad, _ => Except.error ()
  | FSL.nil, _ => Except.error ()
  | _, [] => Except.error ()
  | FSL.consFile n d rest, m :: more =>
    if n == m then
      match more, d with
      | [], some s => Except.ok s
      | _, _ => Except.error ()
    else readFileFS rest (m :: more)
  | FSL.consDir n sub rest, m :: more =>
    if n == m then
      match more with
      | [] => Except.error ()
      | _ => readFileFS sub more
    else readFileFS rest (m :: more)

/-- jsToBase64 of lensValidator.js: read the file and base64 its text. -/
def jsToBase64 (root : FSL) (filePath : List String) : Except Unit String :=
  match readFileFS root filePath with
  | Except.error e => Except.error e
  | Except.ok content => Except.ok (b64OfString content)

/-- The depth first walk of findJsonFiles: every json file of the subtree
in traversal order; an unlistable directory throws. -/
def fjList (cur : List String) : FSL → Except Unit (List (List String))
  | FSL.bad => Except.error ()
  | FSL.nil => Except.ok []
  | FSL.consFile n _ rest =>
    match fjList cur rest with
    | Except.error e => Except.error e
    | Except.ok b =>
      Except.ok ((if extname n == (".json") then [cur ++ [n]] else []) ++ b)
  | FSL.consDir n sub rest =>
    match fjList (cur ++ [n]) sub with
    | Except.error e => Except.error e
    | Except.ok a =>
      match fjList cur rest with
      | Except.error e => Except.error e
      | Except.ok b => Except.ok (a ++ b)

/-- findJsonFiles of lensValidator.js, rooted at the discovery root. -/
def findJsonFiles (root : FSL) : Except Unit (List (List String)) := fjList [] root

structure EnhanceFiles where
  exact : List (List String × List String)
  fallback : List (List String × List (List String))

/-- Lookup in a map built by JavaScript object assignment: the last
assignment to a key wins. -/
def jsGet {α : Type} : List (List String × α) → List String → Option α
  | [], _ => none
  | (k2, v) :: rest, k =>
    match jsGet rest k with
    | some v2 => some v2
    | none => if k2 == k then some v else none

/-- The walk of findEnhanceFiles: yields the exact and fallback maps of the
subtree together with the qualifying js files sitting directly in the
current directory (the jsFilesInDir list of the source); the caller of a
directory registers that list as the fallback entry of the directory.
Unreadable js files are skipped, an unlistable directory throws. -/
def feList (cur : List String) : FSL → Except Unit (EnhanceFiles × List (List String))
  | FSL.bad => Except.error ()
  | FSL.nil => Except.ok (⟨[], []⟩, [])
  | FSL.consFile n d rest =>
    match feList cur rest with
    | Except.error e => Except.error e
    | Except.ok (ef, js) =>
      if extname n == (".js") then
        match d with
        | none => Except.ok (ef, js)
        | some content =>
          if hasEnhanceMarker content then
            Except.ok
              (⟨(cur ++ [basenameStripJs n ++ (".json")], cur ++ [n]) :: ef.exact,
                ef.fallback⟩,
               (cur ++ [n]) :: js)
          else Except.ok (ef, js)
      else Except.ok (ef, js)
  | FSL.consDir n sub rest =>
    match feList (cur ++ [n]) sub with
    | Except.error e => Except.error e
    | Except.ok (efSub, jsSub) =>
      let efSub2 : EnhanceFiles :=
        if jsSub.isEmpty then efSub
        else ⟨efSub.exact, efSub.fallback ++ [(cur ++ [n], jsSub)]⟩
      match feList cur rest with
      | Except.error e => Except.error e
      | Except.ok (efRest, jsRest) =>
        Except.ok (⟨efSub2.exact ++ efRest.exact, efSub2.fallback ++ efRest.fallback⟩, jsRest)

/-- findEnhanceFiles of lensValidator.js rooted at the discovery root. -/
def findEnhanceFiles (root : FSL) : Except Unit EnhanceFiles :=
  match feList [] root with
  | Except.error e => Except.error e
  | Except.ok (ef, js) =>
    Except.ok (if js.isEmpty then ef else ⟨ef.exact, ef.fallback ++ [([], js)]⟩)

/-- path.dirname on a segment path. -/
def dirname (p : List String) : List String := p.dropLast

/-- The script resolution of the enhancement step of discoverLenses:
exact match first, then the first fallback script of the containing
directory, then none; a read failure of the chosen script falls back to
the default payload, clears the script and sets the default provenance. -/
def resolveEnhancement (root : FSL) (enh : EnhanceFiles) (filePath : List String) :
    Option (List String) × String × String :=
  let pick : Option (List String) × String :=
    match jsGet enh.exact filePath with
    | some f => (some f, "exact-match")
    | none =>
      match jsGet enh.fallback (dirname filePath) with
      | some (f :: _) => (some f, "fallback")
      | _ => (none, "exact-match")
  match pick.1 with
  | some f =>
    match jsToBase64 root f with
    | Except.ok b => (some f, pick.2, b)
    | Except.error _ => (none, "default", getDefaultEnhanceBase64)
  | none => (none, "default", getDefaultEnhanceBase64)

/-- The length property read the splice step performs. -/
def lengthProp : JValue → JValue
  | JValue.arr l => JValue.num l.length
  | JValue.str s => JValue.num s.length
  | JValue.obj kvs => findVal kvs ("length")
  | _ => JValue.undef

def isNumZero : JValue → Bool
  | JValue.num n => n == 0
  | _ => false

/-- The indexing content[0] performs. -/
def index0 : JValue → JValue
  | JValue.arr [] => JValue.undef
  | JValue.arr (x :: _) => x
  | JValue.str s =>
    match s.data with
    | [] => JValue.undef
    | c :: _ => JValue.str (String.mk [c])
  | JValue.obj kvs => findVal kvs ("0")
  | _ => JValue.undef

/-- Writing back a mutated first element into its container. -/
def replaceIndex0 (container : JValue) (newElem : JValue) : JValue :=
  match container with
  | JValue.arr (_ :: rest) => JValue.arr (newElem :: rest)
  | JValue.obj kvs => JValue.obj (objSet kvs ("0") newElem)
  | other => other

/-- The payload splice of discoverLenses: content gets replaced by an
empty array when falsy, one empty element is pushed when the length is
zero (push on a non array throws), and the data property of the first
element is set; in sloppy mode a write on a primitive element is silently
lost, a write on a nullish element throws.  A named property write on an
array element is not representable in this value model and is treated as
lost; no document reaching this step in the pipeline carries one. -/
def spliceStep (jsonData : JValue) (b64 : String) : Except Unit JValue :=
  let c0 := getFieldD jsonData ("content")
  let c1 := if truthy c0 then c0 else JValue.arr []
  let pushed : Except Unit JValue :=
    if isNumZero (lengthProp c1) then
      match c1 with
      | JValue.arr l => Except.ok (JValue.arr (l ++ [JValue.obj []]))
      | _ => Except.error ()
    else Except.ok c1
  match pushed with
  | Except.error e => Except.error e
  | Except.ok c2 =>
    match index0 c2 with
    | JValue.null => Except.error ()
    | JValue.undef => Except.error ()
    | JValue.obj kvs =>
      Except.ok (setField jsonData ("content")
        (replaceIndex0 c2 (JValue.obj (objSet kvs ("data") (JValue.str b64)))))
    | _ => Except.ok (setField jsonData ("content") c2)

/-- One element of the list discoverLenses returns. -/
structure LensEntry where
  id : JValue
  name : JValue
  url : JValue
  version : JValue
  status : JValue
  path : List String
  hasBase64 : Bool
  enhancedWithJs : Option (List String)
  enhanceSource : Option String
  lens : JValue

/-- The record pushed onto validLenses; the two optional fields are only
attached when their source value is truthy. -/
def mkLensEntry (jd : JValue) (fp : List String) (ewj : Option (List String))
    (es : Option String) : LensEntry :=
  { id := getFieldD jd ("id"), name := getFieldD jd ("name"),
    url := getFieldD jd ("url"),
    version := if truthy (getFieldD jd ("version")) then getFieldD jd ("version")
      else JValue.str ("unknown"),
    status := getFieldD jd ("status"), path := fp, hasBase64 := true,
    enhancedWithJs := ewj, enhanceSource := es, lens := jd }

/-- The tail of the enhancement branch: splice the payload, revalidate,
and emit the entry only when the document is now valid; any throw inside
is caught at file granularity. -/
def enhanceEmit (jd : JValue) (fp : List String) (ef : Option (List String))
    (src : String) (b64 : String) : Option LensEntry :=
  match spliceStep jd b64 with
  | Except.error _ => none
  | Except.ok jd2 =>
    match validateFHIRLens jd2 with
    | Except.error _ => none
    | Except.ok reval =>
      if reval.isValid then
        some (mkLensEntry jd2 fp ef (if src.isEmpty then none else some src))
      else none

/-- The body of the per file loop of discoverLenses: read, parse,
validate, then either emit directly, or pass the payload only gate and
enhance; every failure is absorbed into none. -/
def processFile (root : FSL) (enh : EnhanceFiles) (fp : List String) :
    Option LensEntry :=
  match readFileFS root fp with
  | Except.error _ => none
  | Except.ok content =>
    match jsonParse content with
    | none => none
    | some jsonData =>
      match validateFHIRLens jsonData with
      | Except.error _ => none
      | Except.ok validation =>
        if validation.isValid then some (mkLensEntry jsonData fp none none)
        else
          match validation.errors with
          | [e0] =>
            if strContains e0 ("content") then
              match isLensMissingBase64Content jsonData with
              | Except.error _ => none
              | Except.ok true =>
                enhanceEmit jsonData fp (resolveEnhancement root enh fp).1
                  (resolveEnhancement root enh fp).2.1
                  (resolveEnhancement root enh fp).2.2
              | Except.ok false => none
            else none
          | _ => none

/-- discoverLenses of lensValidator.js: both walks run up front and any
walk failure aborts the whole call; afterwards each found document file
contributes at most one entry, in walk order. -/
def discoverLenses (root : FSL) : Except Unit (List LensEntry) :=
  match findJsonFiles root with
  | Except.error e => Except.error e
  | Except.ok lensFiles =>
    match findEnhanceFiles root with
    | Except.error e => Except.error e
    | Except.ok enh => Except.ok (lensFiles.filterMap (processFile root enh))

/-- Whether the tree contains an unlistable directory listing reachable by
the walk, the condition under which the initial walk fails. -/
def hasBadFS : FSL → Bool
  | FSL.bad => true
  | FSL.nil => false
  | FSL.consFile _ _ rest => hasBadFS rest
  | FSL.consDir _ sub rest => hasBadFS sub || hasBadFS rest

def okB {α : Type} : Except Unit α → Bool
  | Except.ok _ => true
  | Except.error _ => false

/-! Concrete scenarios used by the claims. -/

/-- The payload of content[0] of a document, if any. -/
def firstData (jd : JValue) : Option String :=
  match getFieldD jd ("content") with
  | JValue.arr (x :: _) =>
    match getFieldD x ("data") with
    | JValue.str s => some s
    | _ => none
  | _ => none

/-- The observable shape of an entry: source path, script path, provenance
tag and the payload of the final document. -/
def entryView (e : LensEntry) :
    List String × Option (List String) × Option String × Option String :=
  (e.path, e.enhancedWithJs, e.enhanceSource, firstData e.lens)

/-- The companion script of the concrete scenario of C1, the exact text
the spec names. -/
def c1script : String := "function enhance(d)\x7breturn d;\x7d"

/-- The document of the concrete scenario of C1: valid except for the
empty content array. -/
def c1docText : String :=
  "\x7b\"resourceType\":\"Library\",\"id\":\"x\",\"url\":\"u\",\"name\":\"n\",\"status\":\"draft\",\"content\":[]\x7d"

/-- A root directory holding that document and its sibling script. -/
def c1root : FSL :=
  FSL.consFile ("x.json") (some c1docText)
    (FSL.consFile ("x.js") (some c1script) FSL.nil)

/-- A root holding one document that is already fully valid. -/
def c2text : String :=
  "\x7b\"resourceType\":\"Library\",\"id\":\"a\",\"url\":\"u\",\"name\":\"n\",\"status\":\"active\",\"content\":[\x7b\"data\":\"Zm9v\"\x7d]\x7d"

def c2root : FSL := FSL.consFile ("a.json") (some c2text) FSL.nil

def c2lens : JValue :=
  JValue.obj
    [(("resourceType"), JValue.str ("Library")), (("id"), JValue.str ("a")),
     (("url"), JValue.str ("u")), (("name"), JValue.str ("n")),
     (("status"), JValue.str ("active")),
     (("content"), JValue.arr [JValue.obj [(("data"), JValue.str ("Zm9v"))]])]

def c2entry : LensEntry :=
  { id := JValue.str ("a"), name := JValue.str ("n"), url := JValue.str ("u"),
    version := JValue.str ("unknown"), status := JValue.str ("active"),
    path := [("a.json")], hasBase64 := true, enhancedWithJs := none,
    enhanceSource := none, lens := c2lens }

/-- Whether a value is an object in the JavaScript sense of the guard of
validateFHIRLens: plain objects and arrays pass it, everything else short
circuits. -/
def isJsObject : JValue → Bool
  | JValue.arr _ => true
  | JValue.obj _ => true
  | _ => false

/-- Null or undefined: property access on these throws. -/
def isNullish : JValue → Bool
  | JValue.null => true
  | JValue.undef => true
  | _ => false

/-- No element of the content array is nullish (vacuously true when
content is not an array): the condition under which the content scan of
validateFHIRLens cannot throw. -/
def safeContent (v : JValue) : Bool :=
  match getFieldD v ("content") with
  | JValue.arr items => items.all (fun x => !(isNullish x))
  | _ => true

/-- A document with every required field except id, and a payload. -/
def noIdDoc : JValue :=
  JValue.obj
    [(("resourceType"), JValue.str ("Library")), (("url"), JValue.str ("u")),
     (("name"), JValue.str ("n")), (("status"), JValue.str ("draft")),
     (("content"), JValue.arr [JValue.obj [(("data"), JValue.str ("Zm9v"))]])]

/-- A payload only invalid document whose single content element is the
primitive number five. -/
def jdC : JValue :=
  JValue.obj
    [(("resourceType"), JValue.str ("Library")), (("id"), JValue.str ("x")),
     (("url"), JValue.str ("u")), (("name"), JValue.str ("n")),
     (("status"), JValue.str ("draft")), (("content"), JValue.arr [JValue.num 5])]

/-- A one file tree holding a readable script, for the enhancement
resolution witness. -/
def c6root : FSL := FSL.consFile ("a.js") (some ("x")) FSL.nil

/-- An enhance map with one exact entry pointing at that script. -/
def c6enh : EnhanceFiles := ⟨[([("a.json")], [("a.js")])], []⟩

/-- A document with an empty content array, for the missing payload
predicate witness. -/
def c7doc : JValue := JValue.obj [(("content"), JValue.arr [])]

/-! Helper lemmas. -/

theorem getField_of_not_nullish (a : JValue) (k : String) (h : isNullish a = false) :
    getField a k = Except.ok (getFieldD a k) := by
  cases a <;> first | rfl | simp [isNullish] at h

theorem getField_nonnull (v : JValue) (k : String) (h1 : v ≠ JValue.null)
    (h2 : v ≠ JValue.undef) : getField v k = Except.ok (getFieldD v k) := by
  cases v <;> first | rfl | exact absurd rfl h1 | exact absurd rfl h2

theorem mem_baseErrs (lens : JValue) (s : String) (h : s ∈ baseErrs lens) :
    s = rtMsg ∨ s = urlMsg ∨ s = nameMsg ∨ s = statusMsg := by
  unfold baseErrs reqStrErr at h
  split_ifs at h <;> simp_all <;> tauto

theorem arrayMsg_not_mem_base (v : JValue) (h : arrayMsg ∈ baseErrs v) : False := by
  rcases mem_baseErrs v _ h with h1 | h1 | h1 | h1 <;> exact absurd h1 (by decide)

theorem contentMsg_not_mem_base (v : JValue) (h : contentMsg ∈ baseErrs v) : False := by
  rcases mem_baseErrs v _ h with h1 | h1 | h1 | h1 <;> exact absurd h1 (by decide)

theorem validate_shape (v : JValue) (r : VResult)
    (h : validateFHIRLens v = Except.ok r) : r.isValid = r.errors.isEmpty := by
  unfold validateFHIRLens at h
  split at h
  · rw [Except.ok.injEq] at h; subst h; rfl
  · split at h
    · split at h
      · simp at h
      · rw [Except.ok.injEq] at h; subst h; rfl
      · rw [Except.ok.injEq] at h; subst h; rfl
    · rw [Except.ok.injEq] at h; subst h; rfl

theorem valid_VResult (r : VResult) (hs : r.isValid = r.errors.isEmpty)
    (hv : r.isValid = true) : r = ⟨true, []⟩ := by
  obtain ⟨b, errs⟩ := r
  subst hv
  cases errs with
  | nil => rfl
  | cons a l => simp at hs

theorem enhanceEmit_valid (jd : JValue) (fp : List String) (ef : Option (List String))
    (src : String) (b64 : String) (e : LensEntry)
    (h : enhanceEmit jd fp ef src b64 = some e) :
    validateFHIRLens e.lens = Except.ok ⟨true, []⟩ := by
  unfold enhanceEmit at h
  split at h
  · simp at h
  · rename_i jd2 hs
    split at h
    · simp at h
    · rename_i reval hr
      split at h
      · rename_i hv
        rw [Option.some.injEq] at h
        subst h
        have hrv := valid_VResult reval (validate_shape jd2 reval hr) hv
        subst hrv
        simpa [mkLensEntry] using hr
      · simp at h

theorem processFile_valid (root : FSL) (enh : EnhanceFiles) (fp : List String)
    (e : LensEntry) (h : processFile root enh fp = some e) :
    validateFHIRLens e.lens = Except.ok ⟨true, []⟩ := by
  unfold processFile at h
  split at h
  · simp at h
  · split at h
    · simp at h
    · rename_i jsonData hj
      split at h
      · simp at h
      · rename_i validation hval
        split at h
        · rename_i hv
          rw [Option.some.injEq] at h
          subst h
          have hrv := valid_VResult validation (validate_shape jsonData validation hval) hv
          subst hrv
          simpa [mkLensEntry] using hval
        · split at h
          · split at h
            · split at h
              · simp at h
              · exact enhanceEmit_valid _ _ _ _ _ _ h
              · simp at h
            · simp at h
          · simp at h

/-! Claim theorems. -/

/-- Claim C2: every element of the list discoverLenses returns carries a
final document on which validateFHIRLens returns isValid true with an
empty violations list. -/
theorem C2_discovered_lenses_validate (root : FSL) (l : List LensEntry)
    (e : LensEntry) (hd : discoverLenses root = Except.ok l) (he : e ∈ l) :
    validateFHIRLens e.lens = Except.ok ⟨true, []⟩ := by
  unfold discoverLenses at hd
  split at hd
  · simp at hd
  · split at hd
    · simp at hd
    · rw [Except.ok.injEq] at hd
      subst hd
      obtain ⟨fp, _, hpf⟩ := List.mem_filterMap.mp he
      exact processFile_valid _ _ _ _ hpf

/-- Witness for C2: the theorem applied to a one file tree holding one
fully valid document. -/
theorem C2_discovered_lenses_validate_witness :
    validateFHIRLens c2entry.lens = Except.ok ⟨true, []⟩ :=
  C2_discovered_lenses_validate c2root [c2entry] c2entry (by rfl) (by simp)

/-- Claim C3 evaluated on the code: a document missing id but otherwise
well formed is accepted by validateFHIRLens with no violations at all, so
no id specific message is ever produced; the validator of the source never
checks id although its own schema constant declares it required. -/
theorem C3_missing_id_accepted :
    getFieldD noIdDoc ("id") = JValue.undef ∧
    validateFHIRLens noIdDoc = Except.ok ⟨true, []⟩ := ⟨rfl, rfl⟩

/-- Counterexample to claim C4 as stated: validateFHIRLens throws (the
embedded model returns an error) on an object whose content array holds a
null element, because the scan reads the data property of null. -/
theorem C4_throws_on_null_content_item :
    validateFHIRLens (JValue.obj [(("content"), JValue.arr [JValue.null])]) =
      Except.error () := rfl

theorem hasBase64Loop_total (items : List JValue)
    (h : items.all (fun x => !(isNullish x)) = true) :
    ∃ b, hasBase64Loop items = Except.ok b := by
  induction items with
  | nil => exact ⟨false, rfl⟩
  | cons a rest ih =>
    rw [List.all_cons] at h
    obtain ⟨h1, h2⟩ := Bool.and_eq_true_iff.mp h
    unfold hasBase64Loop
    rw [getField_of_not_nullish a ("data") (by simpa using h1)]
    dsimp only
    split
    · exact ⟨true, rfl⟩
    · exact ih h2

/-- Claim C4 amended: validateFHIRLens returns a ValidationResult normally
for every input whose content, when it is an array, has no null or
undefined element; on a nullish element reached by the content scan it
throws instead. -/
theorem C4_total_on_safe_content (v : JValue) (h : safeContent v = true) :
    ∃ r, validateFHIRLens v = Except.ok r := by
  unfold validateFHIRLens
  split
  · exact ⟨_, rfl⟩
  · unfold safeContent at h
    cases hc : getFieldD v ("content") with
    | arr items =>
      rw [hc] at h
      dsimp only at h ⊢
      obtain ⟨b, hb⟩ := hasBase64Loop_total items h
      rw [hb]
      cases b
      · exact ⟨_, rfl⟩
      · exact ⟨_, rfl⟩
    | null => exact ⟨_, rfl⟩
    | undef => exact ⟨_, rfl⟩
    | bool b => exact ⟨_, rfl⟩
    | num n => exact ⟨_, rfl⟩
    | str s => exact ⟨_, rfl⟩
    | obj kvs => exact ⟨_, rfl⟩

/-- Witness for the amended C4: applied to the valid concrete document. -/
theorem C4_total_on_safe_content_witness :
    ∃ r, validateFHIRLens c2lens = Except.ok r :=
  C4_total_on_safe_content c2lens (by rfl)

/-- Counterexample to claim C8 as stated: the single violation returned on
null is the verbatim source string, which is not the wording the claim
asserts. -/
theorem C8_message_text_differs :
    validateFHIRLens JValue.null = Except.ok ⟨false, [("Lens must be a JSON object")]⟩ ∧
    (("Lens must be a JSON object") : String) ≠ ("document must be a structured object") :=
  ⟨rfl, by decide⟩

/-- Claim C8 amended: for every input that is null, undefined or not an
object (arrays count as objects), validateFHIRLens returns exactly
isValid false with the single verbatim violation of the source, and no
further checks run. -/
theorem C8_nonobject_short_circuit (v : JValue) (h : isJsObject v = false) :
    validateFHIRLens v = Except.ok ⟨false, [objMsg]⟩ := by
  cases v <;> simp_all [isJsObject, validateFHIRLens, truthy, typeofStr]

/-- Witness for the amended C8: applied to a number. -/
theorem C8_nonobject_short_circuit_witness :
    validateFHIRLens (JValue.num 7) = Except.ok ⟨false, [objMsg]⟩ :=
  C8_nonobject_short_circuit (JValue.num 7) rfl

/-- Claim C10: the two content related violations are mutually exclusive;
no result of validateFHIRLens ever contains both the array message and
the payload message. -/
theorem C10_content_messages_exclusive (v : JValue) (r : VResult)
    (h : validateFHIRLens v = Except.ok r) :
    ¬(arrayMsg ∈ r.errors ∧ contentMsg ∈ r.errors) := by
  rintro ⟨ha, hc⟩
  unfold validateFHIRLens at h
  split at h
  · rw [Except.ok.injEq] at h
    subst h
    exact absurd (List.mem_singleton.mp ha) (by decide)
  · split at h
    · split at h
      · simp at h
      · rw [Except.ok.injEq] at h
        subst h
        exact arrayMsg_not_mem_base v ha
      · rw [Except.ok.injEq] at h
        subst h
        rcases List.mem_append.mp ha with h1 | h1
        · exact arrayMsg_not_mem_base v h1
        · exact absurd (List.mem_singleton.mp h1) (by decide)
    · rw [Except.ok.injEq] at h
      subst h
      rcases List.mem_append.mp hc with h1 | h1
      · exact contentMsg_not_mem_base v h1
      · exact absurd (List.mem_singleton.mp h1) (by decide)

/-- Witness for C10: the theorem applied at the null input. -/
theorem C10_content_messages_exclusive_witness :
    ¬(arrayMsg ∈ (VResult.mk false [objMsg]).errors ∧
      contentMsg ∈ (VResult.mk false [objMsg]).errors) :=
  C10_content_messages_exclusive JValue.null ⟨false, [objMsg]⟩ rfl

theorem contentItemScan_eq (c : JValue) : contentItemScan c = itemHasData c := by
  cases c with
  | obj kvs => rfl
  | null => rfl
  | undef => rfl
  | arr l => rfl
  | bool b => simp [contentItemScan, truthy, getFieldD, itemHasData]
  | num n => simp [contentItemScan, truthy, getFieldD, itemHasData]
  | str s => simp [contentItemScan, truthy, getFieldD, itemHasData]

theorem singleItemMissing_eq (item : JValue) :
    singleItemMissing item = Except.ok (!(itemHasData item)) := by
  cases item with
  | null => rfl
  | undef => rfl
  | bool b => cases b <;> rfl
  | num n =>
    rcases eq_or_ne n 0 with hn | hn
    · subst hn; rfl
    · simp [singleItemMissing, truthy, hn, getFieldD, itemHasData]
  | str s =>
    cases hl : s.length with
    | zero => simp [singleItemMissing, truthy, hl, getFieldD, itemHasData]
    | succ k => simp [singleItemMissing, truthy, hl, getFieldD, itemHasData]
  | arr l => rfl
  | obj kvs =>
    unfold singleItemMissing itemHasData
    cases hd : getFieldD (JValue.obj kvs) ("data") with
    | str s =>
      show (Except.ok (s.length == 0) : Except Unit Bool) =
        Except.ok (!(decide (0 < s.length)))
      cases hl : s.length with
      | zero => rfl
      | succ k => simp
    | null => rfl
    | undef => rfl
    | bool b => rfl
    | num n => rfl
    | arr l => rfl
    | obj kvs2 => rfl

/-- Claim C7: on every document whose content property can be read (the
document is not nullish), isLensMissingBase64Content agrees exactly with
the missing payload predicate as the claim words it. -/
theorem C7_missing_payload_matches_spec (doc : JValue) (h1 : doc ≠ JValue.null)
    (h2 : doc ≠ JValue.undef) :
    isLensMissingBase64Content doc = Except.ok (missingPayloadSpec doc) := by
  unfold isLensMissingBase64Content missingPayloadSpec
  rw [getField_nonnull doc _ h1 h2]
  dsimp only
  cases hc : getFieldD doc ("content") with
  | arr items =>
    rcases items with _ | ⟨a, _ | ⟨b, r⟩⟩
    · rfl
    · exact singleItemMissing_eq a
    · have hfun : contentItemScan = itemHasData := funext contentItemScan_eq
      dsimp only
      rw [hfun]
  | null => rfl
  | undef => rfl
  | bool b => rfl
  | num n => rfl
  | str s => rfl
  | obj kvs => rfl

/-- Witness for C7: the theorem applied to a document with an empty
content array. -/
theorem C7_missing_payload_matches_spec_witness :
    isLensMissingBase64Content c7doc = Except.ok (missingPayloadSpec c7doc) :=
  C7_missing_payload_matches_spec c7doc (by intro h; cases h) (by intro h; cases h)

/-- Claim C6: the payload source precedence of the enhancement step.  The
exact match script of the document path wins with the exact-match tag; else
the first fallback script of the containing directory with the fallback
tag; else the default payload with the default tag; a read failure of the
resolved script falls back to the default payload with the default tag and
clears the script, and an emitted record built without a script carries no
script path. -/
theorem C6_enhancement_precedence (root : FSL) (enh : EnhanceFiles)
    (p : List String) :
    (∀ f b, jsGet enh.exact p = some f → jsToBase64 root f = Except.ok b →
      resolveEnhancement root enh p = (some f, ("exact-match"), b)) ∧
    (∀ f rest b, jsGet enh.exact p = none →
      jsGet enh.fallback (dirname p) = some (f :: rest) →
      jsToBase64 root f = Except.ok b →
      resolveEnhancement root enh p = (some f, ("fallback"), b)) ∧
    (jsGet enh.exact p = none →
      (jsGet enh.fallback (dirname p) = none ∨
        jsGet enh.fallback (dirname p) = some []) →
      resolveEnhancement root enh p = (none, ("default"), getDefaultEnhanceBase64)) ∧
    (∀ f, (jsGet enh.exact p = some f ∨
        (jsGet enh.exact p = none ∧
          ∃ rest, jsGet enh.fallback (dirname p) = some (f :: rest))) →
      jsToBase64 root f = Except.error () →
      resolveEnhancement root enh p = (none, ("default"), getDefaultEnhanceBase64)) ∧
    (∀ jd fp src b64 entry, enhanceEmit jd fp none src b64 = some entry →
      entry.enhancedWithJs = none) := by
  refine ⟨?_, ?_, ?_, ?_, ?_⟩
  · intro f b h1 h2
    simp [resolveEnhancement, h1, h2]
  · intro f rest b h1 h2 h3
    simp [resolveEnhancement, h1, h2, h3]
  · intro h1 h2
    rcases h2 with h2 | h2 <;> simp [resolveEnhancement, h1, h2]
  · intro f h1 h2
    rcases h1 with h1 | ⟨h1, rest, h3⟩
    · simp [resolveEnhancement, h1, h2]
    · simp [resolveEnhancement, h1, h2, h3]
  · intro jd fp src b64 entry h
    unfold enhanceEmit at h
    split at h
    · simp at h
    · split at h
      · simp at h
      · split at h
        · rw [Option.some.injEq] at h
          subst h
          rfl
        · simp at h

/-- Witness for C6: exact match resolution on a one file tree. -/
theorem C6_enhancement_precedence_witness :
    resolveEnhancement c6root c6enh [("a.json")] =
      (some [("a.js")], ("exact-match"), ("eA==")) :=
  (C6_enhancement_precedence c6root c6enh [("a.json")]).1 [("a.js")] ("eA==") rfl rfl

/-- Counterexample to claim C9 as stated: a document with content made of
the single primitive number five passes the payload only gate and so
undergoes the splice step, yet the splice leaves the document unchanged
and the first element of content carries no data afterwards, because a
property write on a primitive is silently lost. -/
theorem C9_primitive_first_element_loses_payload :
    validateFHIRLens jdC = Except.ok ⟨false, [contentMsg]⟩ ∧
    isLensMissingBase64Content jdC = Except.ok true ∧
    spliceStep jdC ("QQ==") = Except.ok jdC ∧
    getFieldD (index0 (getFieldD jdC ("content"))) ("data") = JValue.undef :=
  ⟨rfl, rfl, rfl, rfl⟩

/-- Claim C9 amended: when content is falsy or an empty array the splice
makes content the one element array holding the payload (the only case in
which an element is appended); when content is a non empty array whose
first element is an object, the splice sets that element's data to the
payload and leaves every other element unchanged; a primitive first
element silently loses the write. -/
theorem C9_splice_shape (jd : JValue) (b64 : String) :
    ((truthy (getFieldD jd ("content")) = false ∨
        getFieldD jd ("content") = JValue.arr []) →
      spliceStep jd b64 =
        Except.ok (setField jd ("content")
          (JValue.arr [JValue.obj [(("data"), JValue.str b64)]]))) ∧
    (∀ kvs rest, getFieldD jd ("content") = JValue.arr (JValue.obj kvs :: rest) →
      spliceStep jd b64 =
        Except.ok (setField jd ("content")
          (JValue.arr (JValue.obj (objSet kvs ("data") (JValue.str b64)) :: rest)))) := by
  constructor
  · rintro (h | h)
    · simp [spliceStep, h, lengthProp, isNumZero, index0, replaceIndex0, objSet]
    · simp [spliceStep, h, truthy, lengthProp, isNumZero, index0, replaceIndex0, objSet]
  · intro kvs rest h
    have hz : isNumZero (lengthProp (JValue.arr (JValue.obj kvs :: rest))) = false := by
      simp [isNumZero, lengthProp, beq_iff_eq]
      omega
    simp [spliceStep, h, truthy, hz, index0, replaceIndex0]

/-- Witness for the amended C9: splice into an empty content array. -/
theorem C9_splice_shape_witness :
    spliceStep (JValue.obj [(("content"), JValue.arr [])]) ("QQ==") =
      Except.ok (setField (JValue.obj [(("content"), JValue.arr [])]) ("content")
        (JValue.arr [JValue.obj [(("data"), JValue.str ("QQ=="))]])) :=
  (C9_splice_shape (JValue.obj [(("content"), JValue.arr [])]) ("QQ==")).1 (Or.inr rfl)

/-- Claim C1 evaluated on the code: in the spec scenario of a payload only
invalid document with a sibling script of the same base name holding the
plain declaration of an enhance function, the textual detection of
findEnhanceFiles never fires (its search strings contain the literal
letters s plus instead of a regular expression character class), so the
single result carries the default payload with the default provenance and
no script path, and that payload differs from the encoding of the script
text the claim promises. -/
theorem C1_detection_slip_default_payload :
    hasEnhanceMarker c1script = false ∧
    (match discoverLenses c1root with
      | Except.ok l => some (l.map entryView)
      | Except.error _ => none) =
      some [([("x.json")], none, some ("default"), some getDefaultEnhanceBase64)] ∧
    getDefaultEnhanceBase64 ≠ b64OfString c1script :=
  ⟨rfl, rfl, by decide⟩

theorem fjList_ok (t : FSL) : ∀ cur, okB (fjList cur t) = !hasBadFS t := by
  induction t with
  | bad => intro cur; rfl
  | nil => intro cur; rfl
  | consFile n d rest ih =>
    intro cur
    have h2 := ih cur
    unfold fjList hasBadFS
    cases hr : fjList cur rest with
    | error e => rw [hr] at h2; simpa [okB] using h2
    | ok b => rw [hr] at h2; simpa [okB] using h2
  | consDir n sub rest ihs ihr =>
    intro cur
    have hs := ihs (cur ++ [n])
    have hr2 := ihr cur
    unfold fjList hasBadFS
    cases h1 : fjList (cur ++ [n]) sub with
    | error e =>
      rw [h1] at hs
      simp [okB] at hs
      simp [okB, hs]
    | ok a =>
      rw [h1] at hs
      simp [okB] at hs
      cases h2 : fjList cur rest with
      | error e =>
        rw [h2] at hr2
        simp [okB] at hr2
        simp [okB, hs, hr2]
      | ok b =>
        rw [h2] at hr2
        simp [okB] at hr2
        simp [okB, hs, hr2]

theorem feList_ok (t : FSL) : ∀ cur, okB (feList cur t) = !hasBadFS t := by
  induction t with
  | bad => intro cur; rfl
  | nil => intro cur; rfl
  | consFile n d rest ih =>
    intro cur
    have h2 := ih cur
    unfold feList hasBadFS
    cases hr : feList cur rest with
    | error e => rw [hr] at h2; simpa [okB] using h2
    | ok p =>
      obtain ⟨ef, js⟩ := p
      rw [hr] at h2
      simp only [okB] at h2 ⊢
      split
      · simpa using h2
      · rename_i a heq
        repeat' split at heq
        all_goals simp_all
  | consDir n sub rest ihs ihr =>
    intro cur
    have hs := ihs (cur ++ [n])
    have hr2 := ihr cur
    unfold feList hasBadFS
    cases h1 : feList (cur ++ [n]) sub with
    | error e =>
      rw [h1] at hs
      simp [okB] at hs
      simp [okB, hs]
    | ok p =>
      obtain ⟨efSub, jsSub⟩ := p
      rw [h1] at hs
      simp [okB] at hs
      cases h2 : feList cur rest with
      | error e =>
        rw [h2] at hr2
        simp [okB] at hr2
        simp [okB, hs, hr2]
      | ok q =>
        obtain ⟨efRest, jsRest⟩ := q
        rw [h2] at hr2
        simp [okB] at hr2
        simp [okB, hs, hr2]

/-- Claim C5: discoverLenses fails exactly when the initial directory walk
fails, that is exactly when the tree reachable from the root contains an
unlistable directory listing; every per file problem is absorbed inside
the per file processing and the call still returns a list. -/
theorem C5_error_iff_walk_fails (root : FSL) :
    okB (discoverLenses root) = !hasBadFS root := by
  have hj := fjList_ok root []
  have he := feList_ok root []
  unfold discoverLenses findJsonFiles findEnhanceFiles
  cases h1 : fjList [] root with
  | error e =>
    rw [h1] at hj
    simpa [okB] using hj
  | ok files =>
    rw [h1] at hj
    simp [okB] at hj
    cases h2 : feList [] root with
    | error e =>
      rw [h2] at he
      simp [okB] at he
      rw [hj] at he
      simp at he
    | ok p =>
      obtain ⟨ef, js⟩ := p
      rw [h2] at he
      simp [okB] at he
      simp [okB, hj]
